import Mathlib

/-!
# A shallow embedding of `cmds/statsd/src/packages/UidMap.cpp`

The embedding models the `UidMap` class state and its operations:

* `mMap` (`std::multimap<int, AppData>`) as a uid-sorted association list,
  with `multimap::insert` placing new entries after existing entries with
  the same key;
* `mSnapshots` / `mChanges` (`std::deque`) as lists, front at the head;
* `mLastUpdatePerConfigKey` (`std::map<ConfigKey, int64_t>`) as a
  key-sorted association list over `Nat` keys, including the `operator[]`
  default-insert-zero behaviour that `appendUidMap` exercises;
* `mIsolatedUidMap` (`std::map<int, int>`) as a key-sorted association list;
* `mBytesUsed` (`size_t`) as a `Nat`; the subtractions performed by the
  eviction and purge loops never underflow on states satisfying the byte
  accounting invariant `accounted`, where `Nat` subtraction agrees with
  `size_t` subtraction.

The wire encoder (`ProtoOutputStream`), the byte constants
`kBytesTimestampField` / `kBytesChangeRecord` and the byte budget limit
live outside this file's source (`UidMap.h`, the proto library,
`StatsdStats`). Modelled from the spec: the encoder is an opaque
`encode(entries) -> bytes` service, so a snapshot blob is modelled by its
entry list together with an arbitrary size function `encodedSize`, and the
constants and the limit are parameters (`Consts`, `limit`).

The eviction loop `ensureBytesUsedBelowLimit` is modelled as iteration of
the loop body `evictStep` with enough fuel to drain both logs; on states
where the C++ loop terminates the two agree, and divergence of the C++
loop is expressed directly through `evictStep` (see the theorem for C3).

Listener fan-out, `StatsdStats` counter updates, locking, and the binder
call in `OnConfigUpdated` are external side effects with no influence on
the `UidMap` state modelled here.
-/

namespace UidMap

/-- Two's-complement truncation of an `int64_t` value to `int32_t`, as the
C-style `(int)` casts in the proto writes perform. -/
def toInt32 (v : Int) : Int := (v + 2 ^ 31) % 2 ^ 32 - 2 ^ 31

/-- `AppData`: the value type of the `mMap` multimap (package name and
version code). -/
structure AppData where
  packageName : String
  versionCode : Int
  deriving DecidableEq

/-- `ChangeRecord`: one entry of the change log `mChanges`. -/
structure ChangeRecord where
  deletion : Bool
  timestampNs : Int
  package : String
  uid : Int
  version : Int
  deriving DecidableEq

/-- One serialized package entry of a snapshot blob
(name, `(int)`-truncated version code, uid). -/
structure SnapEntry where
  packageName : String
  versionCode : Int
  uid : Int
  deriving DecidableEq

/-- `SnapshotRecord`: one entry of the snapshot log `mSnapshots`. The
opaque byte blob is modelled by the entry list it encodes. -/
structure SnapshotRecord where
  timestampNs : Int
  bytes : List SnapEntry
  deriving DecidableEq

/-- Modelled from the spec: the byte constants of `UidMap.h` and the
opaque encoder size (`proto.size()` / `vector<char>::size()`), which are
external to the source file. -/
structure Consts where
  kBytesTimestampField : Nat
  kBytesChangeRecord : Nat
  encodedSize : List SnapEntry → Nat

/-- The mutable state of a `UidMap` object. -/
structure UidMapState where
  mMap : List (Int × AppData)
  mSnapshots : List SnapshotRecord
  mChanges : List ChangeRecord
  mBytesUsed : Nat
  mLastUpdatePerConfigKey : List (Nat × Int)
  mIsolatedUidMap : List (Int × Int)
  deriving DecidableEq

/-- Association-list lookup, mirroring `std::map::find`. -/
def alookup {α β : Type} [DecidableEq α] : List (α × β) → α → Option β
  | [], _ => none
  | (a, b) :: rest, k => if a = k then some b else alookup rest k

/-- `std::multimap::insert`: insert after all existing entries whose key is
less than or equal to the new key (the container is key-sorted and a new
entry goes to the upper bound of its key's range). -/
def mapInsert : List (Int × AppData) → Int → AppData → List (Int × AppData)
  | [], u, d => [(u, d)]
  | (k, a) :: rest, u, d =>
    if k ≤ u then (k, a) :: mapInsert rest u d else (u, d) :: (k, a) :: rest

/-- The update loop of `updateApp`: find the first entry with the given uid
and package name and overwrite its version code in place; `none` when no
entry matches. -/
def replaceFirst : List (Int × AppData) → Int → String → Int →
    Option (List (Int × AppData))
  | [], _, _, _ => none
  | (k, a) :: rest, u, p, v =>
    if k = u ∧ a.packageName = p then
      some ((k, { a with versionCode := v }) :: rest)
    else (replaceFirst rest u p v).map ((k, a) :: ·)

/-- The erase loop of `removeApp`: erase the first entry with the given uid
and package name, leaving the list unchanged when none matches. -/
def eraseFirstApp : List (Int × AppData) → Int → String → List (Int × AppData)
  | [], _, _ => []
  | (k, a) :: rest, u, p =>
    if k = u ∧ a.packageName = p then rest else (k, a) :: eraseFirstApp rest u p

/-- `std::map::operator[]` read on `mLastUpdatePerConfigKey`: default-insert
the value `0` when the key is absent (key-sorted insertion). -/
def wmEnsure : List (Nat × Int) → Nat → List (Nat × Int)
  | [], k => [(k, 0)]
  | (a, v) :: rest, k =>
    if k < a then (k, 0) :: (a, v) :: rest
    else if k = a then (a, v) :: rest
    else (a, v) :: wmEnsure rest k

/-- `std::map::operator[]` assignment on `mLastUpdatePerConfigKey`
(key-sorted insert-or-overwrite). -/
def wmSet : List (Nat × Int) → Nat → Int → List (Nat × Int)
  | [], k, t => [(k, t)]
  | (a, v) :: rest, k, t =>
    if k < a then (k, t) :: (a, v) :: rest
    else if k = a then (a, t) :: rest
    else (a, v) :: wmSet rest k t

/-- `UidMap::getMinimumTimestampNs`: fold over the watermark map in
iteration (key) order, taking a value outright whenever the accumulator is
still `0` and the running minimum otherwise. -/
def getMinimumTimestampNs (wm : List (Nat × Int)) : Int :=
  wm.foldl (fun m kv => if m = 0 then kv.2 else if kv.2 < m then kv.2 else m) 0

/-- `std::map::operator[]` assignment on `mIsolatedUidMap`. -/
def imSet : List (Int × Int) → Int → Int → List (Int × Int)
  | [], k, v => [(k, v)]
  | (a, b) :: rest, k, v =>
    if k < a then (k, v) :: (a, b) :: rest
    else if k = a then (a, v) :: rest
    else (a, b) :: imSet rest k v

/-- `std::map::find` followed by `erase` on `mIsolatedUidMap`: remove the
entry with the given key when present. -/
def imErase : List (Int × Int) → Int → List (Int × Int)
  | [], _ => []
  | (a, b) :: rest, k => if a = k then rest else (a, b) :: imErase rest k

/-- The bytes a retained snapshot accounts for:
`record.bytes.size() + kBytesTimestampField`. -/
def snapshotCost (C : Consts) (r : SnapshotRecord) : Nat :=
  C.encodedSize r.bytes + C.kBytesTimestampField

/-- Total bytes accounted to a snapshot list. -/
def snapshotsCost (C : Consts) (l : List SnapshotRecord) : Nat :=
  (l.map (snapshotCost C)).sum

/-- Total bytes accounted to a change list
(`kBytesChangeRecord` per record). -/
def changesCost (C : Consts) (l : List ChangeRecord) : Nat :=
  l.length * C.kBytesChangeRecord

/-- The byte accounting invariant: `mBytesUsed` equals the summed cost of
the retained snapshot and change records. Every mutating operation
preserves it. -/
def accounted (C : Consts) (s : UidMapState) : Prop :=
  s.mBytesUsed = snapshotsCost C s.mSnapshots + changesCost C s.mChanges

/-- One iteration of the `while` body of
`UidMap::ensureBytesUsedBelowLimit`: pop the oldest snapshot when the
snapshot log is nonempty, else pop the oldest change when the change log is
nonempty, else do nothing (the loop body has no other branch). -/
def evictStep (C : Consts) (s : UidMapState) : UidMapState :=
  match s.mSnapshots, s.mChanges with
  | r :: rest, _ =>
    { s with mSnapshots := rest, mBytesUsed := s.mBytesUsed - snapshotCost C r }
  | [], _ :: rest =>
    { s with mChanges := rest, mBytesUsed := s.mBytesUsed - C.kBytesChangeRecord }
  | [], [] => s

/-- Fuel-bounded iteration of the eviction loop: run `evictStep` while
`mBytesUsed > limit`, up to `fuel` iterations. -/
def evictLoop (C : Consts) (limit : Nat) : Nat → UidMapState → UidMapState
  | 0, s => s
  | fuel + 1, s =>
    if limit < s.mBytesUsed then evictLoop C limit fuel (evictStep C s) else s

/-- `UidMap::ensureBytesUsedBelowLimit`, with `limit` the effective budget
(in the source, `maxBytesOverride` when positive, else
`StatsdStats::kMaxBytesUsedUidMap`; both live outside this file). The fuel
suffices to drain both logs, so this agrees with the C++ loop on every
state from which that loop terminates. -/
def ensureBytesUsedBelowLimit (C : Consts) (limit : Nat) (s : UidMapState) :
    UidMapState :=
  evictLoop C limit (s.mSnapshots.length + s.mChanges.length + 1) s

/-- `UidMap::updateMap` (the timestamped overload): clear the identity
store, insert all given triples, append one snapshot of exactly that set,
charge its cost and run the eviction loop. The three arrays are indexed
together in the source; equal lengths are a caller contract and the zip
realizes the indexed traversal. -/
def updateMap (C : Consts) (limit : Nat) (timestamp : Int)
    (uid versionCode : List Int) (packageName : List String)
    (s : UidMapState) : UidMapState :=
  let entries := uid.zip (versionCode.zip packageName)
  let newMap := entries.foldl (fun m e => mapInsert m e.1 ⟨e.2.2, e.2.1⟩) []
  let snapEntries := entries.map (fun e => SnapEntry.mk e.2.2 (toInt32 e.2.1) e.1)
  ensureBytesUsedBelowLimit C limit
    { s with
      mMap := newMap
      mSnapshots := s.mSnapshots ++ [⟨timestamp, snapEntries⟩]
      mBytesUsed := s.mBytesUsed + C.encodedSize snapEntries + C.kBytesTimestampField }

/-- `UidMap::updateApp` (the timestamped overload): append an upgrade
change record, charge and evict, then update the version in place when the
(uid, name) pair exists and insert a fresh entry otherwise. -/
def updateApp (C : Consts) (limit : Nat) (timestamp : Int) (appName : String)
    (uid versionCode : Int) (s : UidMapState) : UidMapState :=
  let s1 :=
    { s with
      mChanges := s.mChanges ++ [⟨false, timestamp, appName, uid, versionCode⟩]
      mBytesUsed := s.mBytesUsed + C.kBytesChangeRecord }
  let s2 := ensureBytesUsedBelowLimit C limit s1
  { s2 with
    mMap := (replaceFirst s2.mMap uid appName versionCode).getD
      (mapInsert s2.mMap uid ⟨appName, versionCode⟩) }

/-- `UidMap::removeApp` (the timestamped overload): append a deletion
change record (version `0`), charge and evict, then erase the first
matching identity entry when one exists. -/
def removeApp (C : Consts) (limit : Nat) (timestamp : Int) (app : String)
    (uid : Int) (s : UidMapState) : UidMapState :=
  let s1 :=
    { s with
      mChanges := s.mChanges ++ [⟨true, timestamp, app, uid, 0⟩]
      mBytesUsed := s.mBytesUsed + C.kBytesChangeRecord }
  let s2 := ensureBytesUsedBelowLimit C limit s1
  { s2 with mMap := eraseFirstApp s2.mMap uid app }

/-- The change-selection loop of `appendUidMap`: every change record whose
timestamp is strictly above the consumer's watermark, in log order. -/
def selectChanges (wmVal : Int) (changes : List ChangeRecord) : List ChangeRecord :=
  changes.filter (fun r => wmVal < r.timestampNs)

/-- The snapshot-selection loop of `appendUidMap`. `n` is the total
snapshot count; `count` counts the snapshots written so far (the source
increments it only inside the emit branch) and `atLeastOne` records whether
anything was emitted yet. -/
def selectSnapshotsAux (n : Nat) (wmVal : Int) :
    List SnapshotRecord → Bool → Nat → List SnapshotRecord
  | [], _, _ => []
  | r :: rest, atLeastOne, count =>
    if (count = n - 1 ∧ atLeastOne = false) ∨ wmVal < r.timestampNs then
      r :: selectSnapshotsAux n wmVal rest true (count + 1)
    else
      selectSnapshotsAux n wmVal rest atLeastOne count

/-- The snapshots `appendUidMap` writes for a consumer with watermark
`wmVal`. -/
def selectSnapshots (wmVal : Int) (snaps : List SnapshotRecord) :
    List SnapshotRecord :=
  selectSnapshotsAux snaps.length wmVal snaps false 0

/-- The snapshot purge loop of `appendUidMap`: erase every snapshot with
timestamp strictly below the cutoff, decrementing the running byte count by
each erased record's cost. -/
def purgeSnapshots (C : Consts) (cutoff : Int) :
    List SnapshotRecord → Nat → List SnapshotRecord × Nat
  | [], b => ([], b)
  | r :: rest, b =>
    if r.timestampNs < cutoff then
      purgeSnapshots C cutoff rest (b - snapshotCost C r)
    else
      let p := purgeSnapshots C cutoff rest b
      (r :: p.1, p.2)

/-- The change purge loop of `appendUidMap`. -/
def purgeChanges (C : Consts) (cutoff : Int) :
    List ChangeRecord → Nat → List ChangeRecord × Nat
  | [], b => ([], b)
  | r :: rest, b =>
    if r.timestampNs < cutoff then
      purgeChanges C cutoff rest (b - C.kBytesChangeRecord)
    else
      let p := purgeChanges C cutoff rest b
      (r :: p.1, p.2)

/-- The snapshot `appendUidMap` synthesizes from the current identity store
when a purge leaves the snapshot log empty. -/
def synthSnapshot (m : List (Int × AppData)) : List SnapEntry :=
  m.map (fun kv => ⟨kv.2.packageName, toInt32 kv.2.versionCode, kv.1⟩)

/-- The watermark map after the two read loops of `appendUidMap`: the
`operator[]` reads default-insert the key with value `0` exactly when at
least one record of either log is iterated. -/
def wmAfterReads (key : Nat) (s : UidMapState) : List (Nat × Int) :=
  if s.mChanges = [] ∧ s.mSnapshots = [] then s.mLastUpdatePerConfigKey
  else wmEnsure s.mLastUpdatePerConfigKey key

/-- The minimum watermark `appendUidMap` computes before assigning the
caller's timestamp. -/
def appendPrevMin (key : Nat) (s : UidMapState) : Int :=
  getMinimumTimestampNs (wmAfterReads key s)

/-- The minimum watermark `appendUidMap` computes after assigning the
caller's timestamp. -/
def appendNewMin (timestamp : Int) (key : Nat) (s : UidMapState) : Int :=
  getMinimumTimestampNs (wmSet (wmAfterReads key s) key timestamp)

/-- The result of `appendUidMap`: the new object state plus the change and
snapshot records written to the output proto. -/
structure AppendResult where
  state : UidMapState
  changesOut : List ChangeRecord
  snapshotsOut : List SnapshotRecord
  deriving DecidableEq

/-- `UidMap::appendUidMap` (the timestamped overload): write the changes
and snapshots selected for the consumer, set its watermark to `timestamp`,
and, when the minimum watermark strictly advanced, purge records below the
new minimum and resynthesize a snapshot if the snapshot log was emptied. -/
def appendUidMap (C : Consts) (timestamp : Int) (key : Nat) (s : UidMapState) :
    AppendResult :=
  let wm0 := wmAfterReads key s
  let wmVal := (alookup wm0 key).getD 0
  let changesOut := selectChanges wmVal s.mChanges
  let snapshotsOut := selectSnapshots wmVal s.mSnapshots
  let prevMin := getMinimumTimestampNs wm0
  let wm1 := wmSet wm0 key timestamp
  let newMin := getMinimumTimestampNs wm1
  if prevMin < newMin then
    let ps := purgeSnapshots C newMin s.mSnapshots s.mBytesUsed
    let pc := purgeChanges C newMin s.mChanges ps.2
    let withSnap :=
      if ps.1 = [] then
        let data := synthSnapshot s.mMap
        (([⟨timestamp, data⟩] : List SnapshotRecord),
          pc.2 + C.kBytesTimestampField + C.encodedSize data)
      else (ps.1, pc.2)
    ⟨{ s with
        mSnapshots := withSnap.1
        mChanges := pc.1
        mBytesUsed := withSnap.2
        mLastUpdatePerConfigKey := wm1 }, changesOut, snapshotsOut⟩
  else
    ⟨{ s with mLastUpdatePerConfigKey := wm1 }, changesOut, snapshotsOut⟩

/-- `UidMap::assignIsolatedUid`. -/
def assignIsolatedUid (isolatedUid parentUid : Int) (s : UidMapState) :
    UidMapState :=
  { s with mIsolatedUidMap := imSet s.mIsolatedUidMap isolatedUid parentUid }

/-- `UidMap::removeIsolatedUid`: erase the alias entry for `isolatedUid`;
the `parentUid` argument is accepted but never read. -/
def removeIsolatedUid (isolatedUid parentUid : Int) (s : UidMapState) :
    UidMapState :=
  { s with mIsolatedUidMap := imErase s.mIsolatedUidMap isolatedUid }

/-- `UidMap::getHostUidOrSelf`: the aliased parent uid when one exists,
else the uid itself. -/
def getHostUidOrSelf (uid : Int) (s : UidMapState) : Int :=
  (alookup s.mIsolatedUidMap uid).getD uid

/-- `UidMap::OnConfigUpdated`: register the consumer with the never-served
sentinel watermark `-1`. The one-shot snapshot request issued when the
snapshot log is empty goes to an external service and does not touch this
state. -/
def OnConfigUpdated (key : Nat) (s : UidMapState) : UidMapState :=
  { s with mLastUpdatePerConfigKey := wmSet s.mLastUpdatePerConfigKey key (-1) }

/-- `UidMap::OnConfigRemoved`: drop the consumer's watermark. -/
def OnConfigRemoved (key : Nat) (s : UidMapState) : UidMapState :=
  { s with
    mLastUpdatePerConfigKey :=
      s.mLastUpdatePerConfigKey.filter (fun kv => kv.1 ≠ key) }

/-- The (uid, packageName) key of an identity-store entry. -/
def storeKeys (m : List (Int × AppData)) : List (Int × String) :=
  m.map (fun kv => (kv.1, kv.2.packageName))

/-- The spec's identity-store uniqueness invariant: no two entries share
their (uid, packageName) pair. -/
def storeUnique (m : List (Int × AppData)) : Prop :=
  (storeKeys m).Nodup

/-- Written from the spec's words, for comparison with
`getMinimumTimestampNs`: the global minimum watermark is the minimum over
all registered consumers, undefined when there are none. -/
def specMinWatermark (wm : List (Nat × Int)) : Option Int :=
  (wm.map (fun kv => kv.2)).min?

/-- The `std::map` representation invariant for the watermark map: keys
strictly increase in iteration order. -/
def wmSorted (wm : List (Nat × Int)) : Prop :=
  (wm.map Prod.fst).Pairwise (· < ·)

instance (C : Consts) (s : UidMapState) : Decidable (accounted C s) := by
  unfold accounted; infer_instance

instance (m : List (Int × AppData)) : Decidable (storeUnique m) := by
  unfold storeUnique; infer_instance

instance (wm : List (Nat × Int)) : Decidable (wmSorted wm) := by
  unfold wmSorted; infer_instance

/-- A concrete instantiation of the external constants, used by the
concrete evaluations below: unit overheads, blob size = entry count. -/
def C0 : Consts := ⟨1, 1, List.length⟩

/-- A state with two retained snapshots both at or below consumer 0's
watermark. -/
def exC1 : UidMapState := ⟨[], [⟨10, []⟩, ⟨20, []⟩], [], 2, [(0, 30)], []⟩

/-- A budget-saturated state (`bytesUsed = 3`) with one old snapshot, one
old change and a three-entry identity store. -/
def exC2 : UidMapState :=
  ⟨[(1, ⟨"a", 1⟩), (2, ⟨"b", 1⟩), (3, ⟨"c", 1⟩)],
   [⟨1, [⟨"a", 1, 1⟩]⟩], [⟨false, 1, "a", 1, 1⟩], 3, [(0, 1)], []⟩

/-- A state with both logs empty while `mBytesUsed` is positive: the byte
counter disagrees with the (empty) logs. -/
def exC3 : UidMapState := ⟨[], [], [], 5, [], []⟩

/-- Consumer 0 holds watermark value `0`, consumer 1 holds `3`; a change at
timestamp 5 is retained that consumer 0 has not seen. -/
def exC4 : UidMapState :=
  ⟨[], [⟨6, [⟨"a", 1, 1⟩]⟩], [⟨false, 5, "a", 1, 1⟩], 3, [(0, 0), (1, 3)], []⟩

/-- A state whose single consumer holds watermark 5. -/
def exC7 : UidMapState := ⟨[], [], [], 0, [(0, 5)], []⟩

/-- The freshly constructed state (`UidMap::UidMap` zero-initializes
`mBytesUsed` and all containers start empty). -/
def exEmpty : UidMapState := ⟨[], [], [], 0, [], []⟩

/-- A small well-formed state (accounting invariant holds, watermark keys
sorted, watermark values nonzero) used by the witness instantiations. -/
def exW : UidMapState :=
  ⟨[(1, ⟨"a", 2⟩)], [⟨1, [⟨"a", 2, 1⟩]⟩], [⟨false, 1, "a", 1, 2⟩], 3,
   [(0, 1), (1, 4)], [(5, 42)]⟩

/-! ## Association-list lemmas -/

theorem alookup_eq_none {α β : Type} [DecidableEq α] (l : List (α × β)) (k : α)
    (h : k ∉ l.map Prod.fst) : alookup l k = none := by
  induction l with
  | nil => rfl
  | cons hd tl ih =>
    obtain ⟨a, b⟩ := hd
    simp only [List.map_cons, List.mem_cons, not_or] at h
    simp only [alookup, if_neg (Ne.symm h.1)]
    exact ih h.2

theorem alookup_mem {α β : Type} [DecidableEq α] (l : List (α × β)) (k : α)
    (w : β) (h : alookup l k = some w) : k ∈ l.map Prod.fst := by
  induction l with
  | nil => simp [alookup] at h
  | cons hd tl ih =>
    obtain ⟨a, b⟩ := hd
    by_cases ha : a = k
    · simp [ha]
    · simp only [alookup, if_neg ha] at h
      simp [ih h]

theorem alookup_wmSet_self (k : Nat) (t : Int) :
    ∀ wm : List (Nat × Int), alookup (wmSet wm k t) k = some t := by
  intro wm
  induction wm with
  | nil => simp [wmSet, alookup]
  | cons hd tl ih =>
    obtain ⟨a, v⟩ := hd
    rcases Nat.lt_trichotomy k a with hlt | heq | hgt
    · simp [wmSet, hlt, alookup]
    · simp [wmSet, heq, Nat.lt_irrefl, alookup]
    · have h1 : ¬ k < a := Nat.not_lt.2 (Nat.le_of_lt hgt)
      have h2 : ¬ k = a := Nat.ne_of_gt hgt
      have h3 : ¬ a = k := Nat.ne_of_lt hgt
      simp only [wmSet, if_neg h1, if_neg h2, alookup, if_neg h3]
      exact ih

theorem wmSet_ne_nil (wm : List (Nat × Int)) (k : Nat) (t : Int) :
    wmSet wm k t ≠ [] := by
  cases wm with
  | nil => simp [wmSet]
  | cons hd tl =>
    obtain ⟨a, v⟩ := hd
    simp only [wmSet]
    split
    · simp
    · split <;> simp

theorem mem_wmSet (k : Nat) (t : Int) :
    ∀ (wm : List (Nat × Int)) (kv : Nat × Int),
      kv ∈ wmSet wm k t → kv = (k, t) ∨ kv ∈ wm := by
  intro wm
  induction wm with
  | nil =>
    intro kv h
    simp only [wmSet, List.mem_singleton] at h
    exact Or.inl h
  | cons hd tl ih =>
    obtain ⟨a, v⟩ := hd
    intro kv h
    rcases Nat.lt_trichotomy k a with hlt | heq | hgt
    · simp only [wmSet, if_pos hlt] at h
      rcases List.mem_cons.1 h with h | h
      · exact Or.inl h
      · exact Or.inr h
    · have h1 : ¬ k < a := by omega
      simp only [wmSet, if_neg h1, if_pos heq] at h
      rcases List.mem_cons.1 h with h | h
      · left; rw [h, heq]
      · exact Or.inr (List.mem_cons_of_mem _ h)
    · have h1 : ¬ k < a := by omega
      have h2 : ¬ k = a := by omega
      simp only [wmSet, if_neg h1, if_neg h2] at h
      rcases List.mem_cons.1 h with h | h
      · exact Or.inr (by simp [h])
      · rcases ih kv h with h3 | h3
        · exact Or.inl h3
        · exact Or.inr (List.mem_cons_of_mem _ h3)

theorem wmEnsure_of_lookup (k : Nat) (w : Int) :
    ∀ wm : List (Nat × Int), wmSorted wm → alookup wm k = some w →
      wmEnsure wm k = wm := by
  intro wm
  induction wm with
  | nil => intro _ h; simp [alookup] at h
  | cons hd tl ih =>
    obtain ⟨a, v⟩ := hd
    intro hs hl
    by_cases ha : a = k
    · simp [wmEnsure, ha, Nat.lt_irrefl]
    · simp only [alookup, if_neg ha] at hl
      have hmem : k ∈ tl.map Prod.fst := alookup_mem tl k w hl
      have hak : a < k := by
        simp only [wmSorted, List.map_cons, List.pairwise_cons] at hs
        exact hs.1 k hmem
      have hs2 : wmSorted tl := by
        simp only [wmSorted, List.map_cons, List.pairwise_cons] at hs
        exact hs.2
      have h1 : ¬ k < a := Nat.not_lt.2 (Nat.le_of_lt hak)
      have h2 : ¬ k = a := fun e => ha e.symm
      simp only [wmEnsure, if_neg h1, if_neg h2]
      rw [ih hs2 hl]

/-! ## Identity-store lemmas -/

theorem storeKeys_cons (kv : Int × AppData) (m : List (Int × AppData)) :
    storeKeys (kv :: m) = (kv.1, kv.2.packageName) :: storeKeys m := rfl

theorem mapInsert_perm (u : Int) (d : AppData) :
    ∀ m : List (Int × AppData), List.Perm (mapInsert m u d) ((u, d) :: m) := by
  intro m
  induction m with
  | nil => exact List.Perm.refl _
  | cons hd tl ih =>
    obtain ⟨k, a⟩ := hd
    by_cases h : k ≤ u
    · simp only [mapInsert, if_pos h]
      exact (ih.cons (k, a)).trans (List.Perm.swap _ _ _)
    · simp only [mapInsert, if_neg h]
      exact List.Perm.refl _

theorem foldl_mapInsert_perm :
    ∀ (l : List (Int × Int × String)) (acc : List (Int × AppData)),
      List.Perm (l.foldl (fun m e => mapInsert m e.1 ⟨e.2.2, e.2.1⟩) acc)
        (acc ++ l.map (fun e => (e.1, (⟨e.2.2, e.2.1⟩ : AppData)))) := by
  intro l
  induction l with
  | nil => simp
  | cons e rest ih =>
    intro acc
    simp only [List.foldl_cons, List.map_cons]
    refine (ih _).trans ?_
    refine (List.Perm.append_right _ (mapInsert_perm _ _ _)).trans ?_
    exact List.perm_middle.symm

theorem storeKeys_replaceFirst (u : Int) (p : String) (v : Int) :
    ∀ (m m' : List (Int × AppData)),
      replaceFirst m u p v = some m' → storeKeys m' = storeKeys m := by
  intro m
  induction m with
  | nil => intro m' h; simp [replaceFirst] at h
  | cons hd tl ih =>
    obtain ⟨k, a⟩ := hd
    intro m' h
    by_cases hc : k = u ∧ a.packageName = p
    · simp only [replaceFirst, if_pos hc, Option.some.injEq] at h
      rw [← h, storeKeys_cons, storeKeys_cons]
    · simp only [replaceFirst, if_neg hc] at h
      cases hr : replaceFirst tl u p v with
      | none => simp [hr] at h
      | some r' =>
        simp only [hr, Option.map_some', Option.some.injEq] at h
        rw [← h, storeKeys_cons, storeKeys_cons, ih r' hr]

theorem replaceFirst_none (u : Int) (p : String) (v : Int) :
    ∀ m : List (Int × AppData),
      replaceFirst m u p v = none → (u, p) ∉ storeKeys m := by
  intro m
  induction m with
  | nil => intro _; simp [storeKeys]
  | cons hd tl ih =>
    obtain ⟨k, a⟩ := hd
    intro h
    by_cases hc : k = u ∧ a.packageName = p
    · simp [replaceFirst, if_pos hc] at h
    · simp only [replaceFirst, if_neg hc] at h
      cases hr : replaceFirst tl u p v with
      | none =>
        rw [storeKeys_cons]
        simp only [List.mem_cons, not_or]
        constructor
        · intro he
          rw [Prod.mk.injEq] at he
          exact hc ⟨he.1.symm, he.2.symm⟩
        · exact ih hr
      | some r' => simp [hr] at h

theorem eraseFirstApp_sublist (u : Int) (p : String) :
    ∀ m : List (Int × AppData), List.Sublist (eraseFirstApp m u p) m := by
  intro m
  induction m with
  | nil => exact List.Sublist.refl _
  | cons hd tl ih =>
    obtain ⟨k, a⟩ := hd
    by_cases hc : k = u ∧ a.packageName = p
    · simpa [eraseFirstApp, if_pos hc] using List.sublist_cons_self (k, a) tl
    · simpa [eraseFirstApp, if_neg hc] using ih.cons₂ (k, a)

theorem eraseFirstApp_of_no_match (u : Int) (p : String) :
    ∀ m : List (Int × AppData),
      (∀ kv ∈ m, ¬(kv.1 = u ∧ kv.2.packageName = p)) →
      eraseFirstApp m u p = m := by
  intro m
  induction m with
  | nil => intro _; rfl
  | cons hd tl ih =>
    obtain ⟨k, a⟩ := hd
    intro h
    have hc : ¬(k = u ∧ a.packageName = p) := h (k, a) (by simp)
    simp only [eraseFirstApp, if_neg hc]
    rw [ih (fun kv hkv => h kv (by simp [hkv]))]

/-! ## Eviction-loop lemmas -/

theorem evictStep_mMap (C : Consts) (s : UidMapState) :
    (evictStep C s).mMap = s.mMap := by
  rcases s with ⟨mp, snaps, chgs, b, wm, iso⟩
  cases snaps <;> cases chgs <;> rfl

theorem evictStep_wm (C : Consts) (s : UidMapState) :
    (evictStep C s).mLastUpdatePerConfigKey = s.mLastUpdatePerConfigKey := by
  rcases s with ⟨mp, snaps, chgs, b, wm, iso⟩
  cases snaps <;> cases chgs <;> rfl

theorem evictStep_iso (C : Consts) (s : UidMapState) :
    (evictStep C s).mIsolatedUidMap = s.mIsolatedUidMap := by
  rcases s with ⟨mp, snaps, chgs, b, wm, iso⟩
  cases snaps <;> cases chgs <;> rfl

theorem evictStep_set_mMap (C : Consts) (s : UidMapState)
    (m : List (Int × AppData)) :
    evictStep C { s with mMap := m } = { evictStep C s with mMap := m } := by
  rcases s with ⟨mp, snaps, chgs, b, wm, iso⟩
  cases snaps <;> cases chgs <;> rfl

theorem evictLoop_mMap (C : Consts) (limit : Nat) :
    ∀ (fuel : Nat) (s : UidMapState), (evictLoop C limit fuel s).mMap = s.mMap
  | 0, _ => rfl
  | fuel + 1, s => by
    simp only [evictLoop]
    split
    · rw [evictLoop_mMap C limit fuel, evictStep_mMap]
    · rfl

theorem evictLoop_wm (C : Consts) (limit : Nat) :
    ∀ (fuel : Nat) (s : UidMapState),
      (evictLoop C limit fuel s).mLastUpdatePerConfigKey
        = s.mLastUpdatePerConfigKey
  | 0, _ => rfl
  | fuel + 1, s => by
    simp only [evictLoop]
    split
    · rw [evictLoop_wm C limit fuel, evictStep_wm]
    · rfl

theorem evictLoop_iso (C : Consts) (limit : Nat) :
    ∀ (fuel : Nat) (s : UidMapState),
      (evictLoop C limit fuel s).mIsolatedUidMap = s.mIsolatedUidMap
  | 0, _ => rfl
  | fuel + 1, s => by
    simp only [evictLoop]
    split
    · rw [evictLoop_iso C limit fuel, evictStep_iso]
    · rfl

theorem evictLoop_set_mMap (C : Consts) (limit : Nat) :
    ∀ (fuel : Nat) (s : UidMapState) (m : List (Int × AppData)),
      evictLoop C limit fuel { s with mMap := m }
        = { evictLoop C limit fuel s with mMap := m }
  | 0, _, _ => rfl
  | fuel + 1, s, m => by
    simp only [evictLoop]
    by_cases h : limit < s.mBytesUsed
    · rw [if_pos h, if_pos (show limit < ({ s with mMap := m } : UidMapState).mBytesUsed from h),
        evictStep_set_mMap, evictLoop_set_mMap C limit fuel]
    · rw [if_neg h, if_neg (show ¬ limit < ({ s with mMap := m } : UidMapState).mBytesUsed from h)]

theorem ensure_set_mMap (C : Consts) (limit : Nat) (s : UidMapState)
    (m : List (Int × AppData)) :
    ensureBytesUsedBelowLimit C limit { s with mMap := m }
      = { ensureBytesUsedBelowLimit C limit s with mMap := m } := by
  simp only [ensureBytesUsedBelowLimit]
  exact evictLoop_set_mMap C limit _ s m

theorem snapshotsCost_nil (C : Consts) : snapshotsCost C [] = 0 := rfl

theorem snapshotsCost_cons (C : Consts) (r : SnapshotRecord)
    (l : List SnapshotRecord) :
    snapshotsCost C (r :: l) = snapshotCost C r + snapshotsCost C l := by
  simp [snapshotsCost]

theorem changesCost_nil (C : Consts) : changesCost C [] = 0 := by
  simp [changesCost]

theorem changesCost_cons (C : Consts) (c : ChangeRecord)
    (l : List ChangeRecord) :
    changesCost C (c :: l) = C.kBytesChangeRecord + changesCost C l := by
  simp [changesCost]
  ring

theorem evictStep_eq_snap (C : Consts) (s : UidMapState) (r : SnapshotRecord)
    (rest : List SnapshotRecord) (h : s.mSnapshots = r :: rest) :
    evictStep C s
      = { s with mSnapshots := rest,
                 mBytesUsed := s.mBytesUsed - snapshotCost C r } := by
  rcases s with ⟨mp, snaps, chgs, b, wm, iso⟩
  dsimp only at h
  subst h
  rfl

theorem evictStep_eq_chg (C : Consts) (s : UidMapState) (c : ChangeRecord)
    (restc : List ChangeRecord) (h1 : s.mSnapshots = [])
    (h2 : s.mChanges = c :: restc) :
    evictStep C s
      = { s with mChanges := restc,
                 mBytesUsed := s.mBytesUsed - C.kBytesChangeRecord } := by
  rcases s with ⟨mp, snaps, chgs, b, wm, iso⟩
  dsimp only at h1 h2
  subst h1
  subst h2
  rfl

/-- The combined behaviour of the eviction loop on accounted states: it
terminates under the limit, drops a prefix of the snapshot log and a prefix
of the change log, touches changes only after every snapshot is gone,
decrements `mBytesUsed` by exactly the dropped records' cost, evicts only
when over the limit, and preserves the accounting invariant. -/
theorem evictLoop_main (C : Consts) (limit : Nat) :
    ∀ (fuel : Nat) (s : UidMapState),
      accounted C s → s.mSnapshots.length + s.mChanges.length < fuel →
      ∃ k j,
        (evictLoop C limit fuel s).mSnapshots = s.mSnapshots.drop k
        ∧ (evictLoop C limit fuel s).mChanges = s.mChanges.drop j
        ∧ (0 < j → s.mSnapshots.length ≤ k)
        ∧ s.mBytesUsed = (evictLoop C limit fuel s).mBytesUsed
            + snapshotsCost C (s.mSnapshots.take k) + j * C.kBytesChangeRecord
        ∧ (0 < k + j → limit < s.mBytesUsed)
        ∧ accounted C (evictLoop C limit fuel s)
        ∧ (evictLoop C limit fuel s).mBytesUsed ≤ limit := by
  intro fuel
  induction fuel with
  | zero => intro s _ hlen; omega
  | succ fuel ih =>
    intro s hacc hlen
    by_cases hg : limit < s.mBytesUsed
    · rcases hs : s.mSnapshots with _ | ⟨r, rest⟩
      · rcases hc : s.mChanges with _ | ⟨c, restc⟩
        · exfalso
          rw [accounted, hs, hc, snapshotsCost_nil, changesCost_nil] at hacc
          omega
        · have hstep := evictStep_eq_chg C s c restc hs hc
          have e1 : (evictStep C s).mSnapshots = [] := by rw [hstep]; exact hs
          have e2 : (evictStep C s).mChanges = restc := by rw [hstep]
          have e3 : (evictStep C s).mBytesUsed
              = s.mBytesUsed - C.kBytesChangeRecord := by rw [hstep]
          have hcost : s.mBytesUsed
              = C.kBytesChangeRecord + changesCost C restc := by
            rw [accounted, hs, hc, snapshotsCost_nil, changesCost_cons] at hacc
            omega
          have hacc2 : accounted C (evictStep C s) := by
            rw [accounted, e1, e2, e3, snapshotsCost_nil]
            omega
          have hlen2 : (evictStep C s).mSnapshots.length
              + (evictStep C s).mChanges.length < fuel := by
            rw [e1, e2]
            rw [hs, hc] at hlen
            simp only [List.length_nil, List.length_cons] at hlen ⊢
            omega
          obtain ⟨k, j, h1, h2, h3, h4, h5, h6, h7⟩ := ih (evictStep C s) hacc2 hlen2
          have hloop : evictLoop C limit (fuel + 1) s
              = evictLoop C limit fuel (evictStep C s) := by
            simp only [evictLoop, if_pos hg]
          refine ⟨0, j + 1, ?_, ?_, ?_, ?_, ?_, ?_, ?_⟩
          · rw [hloop, h1, e1]
            simp [hs]
          · rw [hloop, h2, e2]
            simp [hc]
          · intro _
            simp [hs]
          · rw [hloop]
            simp only [hs, List.take_nil, snapshotsCost_nil]
            rw [e1, e3] at h4
            simp only [List.take_nil, snapshotsCost_nil] at h4
            have hj : (j + 1) * C.kBytesChangeRecord
                = j * C.kBytesChangeRecord + C.kBytesChangeRecord := by ring
            omega
          · intro _; exact hg
          · rw [hloop]; exact h6
          · rw [hloop]; exact h7
      · have hstep := evictStep_eq_snap C s r rest hs
        have e1 : (evictStep C s).mSnapshots = rest := by rw [hstep]
        have e2 : (evictStep C s).mChanges = s.mChanges := by rw [hstep]
        have e3 : (evictStep C s).mBytesUsed
            = s.mBytesUsed - snapshotCost C r := by rw [hstep]
        have hcost : s.mBytesUsed = snapshotCost C r + snapshotsCost C rest
            + changesCost C s.mChanges := by
          rw [accounted, hs, snapshotsCost_cons] at hacc
          omega
        have hacc2 : accounted C (evictStep C s) := by
          rw [accounted, e1, e2, e3]
          omega
        have hlen2 : (evictStep C s).mSnapshots.length
            + (evictStep C s).mChanges.length < fuel := by
          rw [e1, e2]
          rw [hs] at hlen
          simp only [List.length_cons] at hlen
          omega
        obtain ⟨k, j, h1, h2, h3, h4, h5, h6, h7⟩ := ih (evictStep C s) hacc2 hlen2
        have hloop : evictLoop C limit (fuel + 1) s
            = evictLoop C limit fuel (evictStep C s) := by
          simp only [evictLoop, if_pos hg]
        refine ⟨k + 1, j, ?_, ?_, ?_, ?_, ?_, ?_, ?_⟩
        · rw [hloop, h1, e1, List.drop_succ_cons]
        · rw [hloop, h2, e2]
        · intro hj
          have := h3 hj
          rw [e1] at this
          simp only [List.length_cons]
          omega
        · rw [hloop, List.take_succ_cons, snapshotsCost_cons]
          rw [e1, e3] at h4
          omega
        · intro _; exact hg
        · rw [hloop]; exact h6
        · rw [hloop]; exact h7
    · have hloop : evictLoop C limit (fuel + 1) s = s := by
        simp only [evictLoop, if_neg hg]
      refine ⟨0, 0, ?_, ?_, ?_, ?_, ?_, ?_, ?_⟩
      · rw [hloop]; rfl
      · rw [hloop]; rfl
      · omega
      · rw [hloop, List.take_zero, snapshotsCost_nil]
        omega
      · omega
      · rw [hloop]; exact hacc
      · rw [hloop]; omega

/-- Termination bound of the eviction loop under the accounting invariant,
phrased for `ensureBytesUsedBelowLimit` with its actual fuel. -/
theorem ensure_main (C : Consts) (limit : Nat) (s : UidMapState)
    (hacc : accounted C s) :
    ∃ k j,
      (ensureBytesUsedBelowLimit C limit s).mSnapshots = s.mSnapshots.drop k
      ∧ (ensureBytesUsedBelowLimit C limit s).mChanges = s.mChanges.drop j
      ∧ (0 < j → s.mSnapshots.length ≤ k)
      ∧ s.mBytesUsed = (ensureBytesUsedBelowLimit C limit s).mBytesUsed
          + snapshotsCost C (s.mSnapshots.take k) + j * C.kBytesChangeRecord
      ∧ (0 < k + j → limit < s.mBytesUsed)
      ∧ accounted C (ensureBytesUsedBelowLimit C limit s)
      ∧ (ensureBytesUsedBelowLimit C limit s).mBytesUsed ≤ limit := by
  exact evictLoop_main C limit _ s hacc (by omega)

theorem ensure_le (C : Consts) (limit : Nat) (s : UidMapState)
    (hacc : accounted C s) :
    (ensureBytesUsedBelowLimit C limit s).mBytesUsed ≤ limit
    ∧ accounted C (ensureBytesUsedBelowLimit C limit s) := by
  obtain ⟨k, j, _, _, _, _, _, h6, h7⟩ := ensure_main C limit s hacc
  exact ⟨h7, h6⟩

theorem ensure_of_le (C : Consts) (limit : Nat) (s : UidMapState)
    (h : s.mBytesUsed ≤ limit) : ensureBytesUsedBelowLimit C limit s = s := by
  simp only [ensureBytesUsedBelowLimit, evictLoop, if_neg (Nat.not_lt.2 h)]

/-! ## Purge-loop lemmas -/

theorem purgeSnapshots_eq (C : Consts) (cutoff : Int) :
    ∀ (l : List SnapshotRecord) (b : Nat),
      purgeSnapshots C cutoff l b
        = (l.filter (fun r => cutoff ≤ r.timestampNs),
           b - snapshotsCost C (l.filter (fun r => r.timestampNs < cutoff))) := by
  intro l
  induction l with
  | nil => intro b; simp [purgeSnapshots, snapshotsCost]
  | cons r rest ih =>
    intro b
    by_cases h : r.timestampNs < cutoff
    · have hnot : ¬ cutoff ≤ r.timestampNs := by omega
      simp only [purgeSnapshots, if_pos h, ih]
      simp [List.filter_cons, h, hnot, snapshotsCost_cons, Nat.sub_sub]
    · have hle : cutoff ≤ r.timestampNs := by omega
      simp only [purgeSnapshots, if_neg h, ih]
      simp [List.filter_cons, h, hle]

theorem purgeChanges_eq (C : Consts) (cutoff : Int) :
    ∀ (l : List ChangeRecord) (b : Nat),
      purgeChanges C cutoff l b
        = (l.filter (fun r => cutoff ≤ r.timestampNs),
           b - changesCost C (l.filter (fun r => r.timestampNs < cutoff))) := by
  intro l
  induction l with
  | nil => intro b; simp [purgeChanges, changesCost]
  | cons r rest ih =>
    intro b
    by_cases h : r.timestampNs < cutoff
    · have hnot : ¬ cutoff ≤ r.timestampNs := by omega
      simp only [purgeChanges, if_pos h, ih]
      have hc : changesCost C (r :: List.filter (fun x => decide (x.timestampNs < cutoff)) rest)
          = C.kBytesChangeRecord
            + changesCost C (List.filter (fun x => decide (x.timestampNs < cutoff)) rest) :=
        changesCost_cons C r _
      simp [List.filter_cons, h, hnot, hc, Nat.sub_sub]
    · have hle : cutoff ≤ r.timestampNs := by omega
      simp only [purgeChanges, if_neg h, ih]
      simp [List.filter_cons, h, hle]

/-! ## Minimum-watermark lemmas -/

theorem gm_fold_aux :
    ∀ (l : List Int) (m : Int), m ≠ 0 → (∀ v ∈ l, v ≠ 0) →
      l.foldl (fun m v => if m = 0 then v else if v < m then v else m) m
          = l.foldl min m
        ∧ l.foldl min m ≠ 0 := by
  intro l
  induction l with
  | nil => intro m hm _; exact ⟨rfl, hm⟩
  | cons v rest ih =>
    intro m hm hl
    have hv : v ≠ 0 := hl v (by simp)
    have hstep : (if m = 0 then v else if v < m then v else m) = min m v := by
      rw [if_neg hm]
      rcases lt_or_le v m with h | h
      · rw [if_pos h, min_eq_right (le_of_lt h)]
      · rw [if_neg (not_lt.2 h), min_eq_left h]
    have hmin : min m v ≠ 0 := by
      rcases min_choice m v with h | h <;> rw [h] <;> assumption
    have := ih (min m v) hmin (fun w hw => hl w (by simp [hw]))
    constructor
    · simp only [List.foldl_cons, hstep]
      exact this.1
    · simp only [List.foldl_cons]
      exact this.2

theorem getMinimumTimestampNs_eq_foldl (wm : List (Nat × Int)) :
    getMinimumTimestampNs wm
      = (wm.map (fun kv => kv.2)).foldl
          (fun m v => if m = 0 then v else if v < m then v else m) 0 := by
  rw [getMinimumTimestampNs, List.foldl_map]

/-- When every registered watermark value is nonzero, the fold of
`getMinimumTimestampNs` computes the true minimum of the spec. -/
theorem getMin_eq_specMin (wm : List (Nat × Int)) (hne : wm ≠ [])
    (h : ∀ kv ∈ wm, kv.2 ≠ 0) :
    specMinWatermark wm = some (getMinimumTimestampNs wm) := by
  cases wm with
  | nil => exact absurd rfl hne
  | cons hd tl =>
    obtain ⟨k, v⟩ := hd
    have hv : v ≠ 0 := h (k, v) (by simp)
    have hvals : ∀ w ∈ tl.map (fun kv => kv.2), w ≠ 0 := by
      intro w hw
      obtain ⟨kv, hkv, rfl⟩ := List.mem_map.1 hw
      exact h kv (by simp [hkv])
    have haux := gm_fold_aux (tl.map (fun kv => kv.2)) v hv hvals
    rw [getMinimumTimestampNs_eq_foldl]
    simp only [List.map_cons, List.foldl_cons, if_true, eq_self_iff_true]
    rw [haux.1]
    rfl

/-! ## `appendUidMap` component lemmas -/

theorem appendUidMap_wm (C : Consts) (t : Int) (key : Nat) (s : UidMapState) :
    (appendUidMap C t key s).state.mLastUpdatePerConfigKey
      = wmSet (wmAfterReads key s) key t := by
  rw [appendUidMap]
  split <;> rfl

theorem appendUidMap_mMap (C : Consts) (t : Int) (key : Nat) (s : UidMapState) :
    (appendUidMap C t key s).state.mMap = s.mMap := by
  rw [appendUidMap]
  split <;> rfl

theorem appendUidMap_outputs (C : Consts) (t : Int) (key : Nat)
    (s : UidMapState) :
    (appendUidMap C t key s).changesOut
        = selectChanges ((alookup (wmAfterReads key s) key).getD 0) s.mChanges
      ∧ (appendUidMap C t key s).snapshotsOut
        = selectSnapshots ((alookup (wmAfterReads key s) key).getD 0)
            s.mSnapshots := by
  rw [appendUidMap]
  constructor <;> (split <;> rfl)

theorem appendUidMap_state_of_not_lt (C : Consts) (t : Int) (key : Nat)
    (s : UidMapState) (h : ¬ appendPrevMin key s < appendNewMin t key s) :
    (appendUidMap C t key s).state
      = { s with mLastUpdatePerConfigKey := wmSet (wmAfterReads key s) key t } := by
  rw [appendPrevMin, appendNewMin] at h
  rw [appendUidMap, if_neg h]

theorem appendUidMap_state_of_lt (C : Consts) (t : Int) (key : Nat)
    (s : UidMapState) (h : appendPrevMin key s < appendNewMin t key s) :
    (appendUidMap C t key s).state
      = { s with
          mSnapshots :=
            if s.mSnapshots.filter
                (fun r => appendNewMin t key s ≤ r.timestampNs) = [] then
              [⟨t, synthSnapshot s.mMap⟩]
            else
              s.mSnapshots.filter (fun r => appendNewMin t key s ≤ r.timestampNs)
          mChanges :=
            s.mChanges.filter (fun r => appendNewMin t key s ≤ r.timestampNs)
          mBytesUsed :=
            if s.mSnapshots.filter
                (fun r => appendNewMin t key s ≤ r.timestampNs) = [] then
              s.mBytesUsed
                - snapshotsCost C
                    (s.mSnapshots.filter (fun r => r.timestampNs < appendNewMin t key s))
                - changesCost C
                    (s.mChanges.filter (fun r => r.timestampNs < appendNewMin t key s))
                + C.kBytesTimestampField + C.encodedSize (synthSnapshot s.mMap)
            else
              s.mBytesUsed
                - snapshotsCost C
                    (s.mSnapshots.filter (fun r => r.timestampNs < appendNewMin t key s))
                - changesCost C
                    (s.mChanges.filter (fun r => r.timestampNs < appendNewMin t key s))
          mLastUpdatePerConfigKey := wmSet (wmAfterReads key s) key t } := by
  have h2 := h
  rw [appendPrevMin, appendNewMin] at h2
  rw [appendUidMap, if_pos h2]
  rw [appendNewMin]
  simp only [purgeSnapshots_eq, purgeChanges_eq]
  split <;> rfl

/-! ## Operation component lemmas -/

theorem ensure_mMap (C : Consts) (limit : Nat) (s : UidMapState) :
    (ensureBytesUsedBelowLimit C limit s).mMap = s.mMap := by
  rw [ensureBytesUsedBelowLimit]
  exact evictLoop_mMap C limit _ s

theorem ensure_wm (C : Consts) (limit : Nat) (s : UidMapState) :
    (ensureBytesUsedBelowLimit C limit s).mLastUpdatePerConfigKey
      = s.mLastUpdatePerConfigKey := by
  rw [ensureBytesUsedBelowLimit]
  exact evictLoop_wm C limit _ s

theorem ensure_iso (C : Consts) (limit : Nat) (s : UidMapState) :
    (ensureBytesUsedBelowLimit C limit s).mIsolatedUidMap
      = s.mIsolatedUidMap := by
  rw [ensureBytesUsedBelowLimit]
  exact evictLoop_iso C limit _ s

theorem changesCost_append_singleton (C : Consts) (c : ChangeRecord)
    (l : List ChangeRecord) :
    changesCost C (l ++ [c]) = changesCost C l + C.kBytesChangeRecord := by
  simp [changesCost]
  ring

theorem snapshotsCost_append_singleton (C : Consts) (r : SnapshotRecord)
    (l : List SnapshotRecord) :
    snapshotsCost C (l ++ [r]) = snapshotsCost C l + snapshotCost C r := by
  simp [snapshotsCost]

theorem accounted_addChange (C : Consts) (s : UidMapState) (r : ChangeRecord)
    (h : accounted C s) :
    accounted C { s with mChanges := s.mChanges ++ [r],
                         mBytesUsed := s.mBytesUsed + C.kBytesChangeRecord } := by
  show s.mBytesUsed + C.kBytesChangeRecord
      = snapshotsCost C s.mSnapshots + changesCost C (s.mChanges ++ [r])
  rw [changesCost_append_singleton, accounted] at *
  omega

theorem accounted_addSnap (C : Consts) (s : UidMapState)
    (m2 : List (Int × AppData)) (r : SnapshotRecord) (h : accounted C s) :
    accounted C { s with mMap := m2,
                         mSnapshots := s.mSnapshots ++ [r],
                         mBytesUsed := s.mBytesUsed + C.encodedSize r.bytes
                           + C.kBytesTimestampField } := by
  show s.mBytesUsed + C.encodedSize r.bytes + C.kBytesTimestampField
      = snapshotsCost C (s.mSnapshots ++ [r]) + changesCost C s.mChanges
  rw [snapshotsCost_append_singleton, snapshotCost, accounted] at *
  omega

/-! ## Store-uniqueness preservation lemmas -/

theorem storeUnique_updateApp_map (m : List (Int × AppData)) (u : Int)
    (p : String) (v : Int) (h : storeUnique m) :
    storeUnique ((replaceFirst m u p v).getD (mapInsert m u ⟨p, v⟩)) := by
  cases hr : replaceFirst m u p v with
  | some m2 =>
    simp only [Option.getD_some]
    rw [storeUnique, storeKeys_replaceFirst u p v m m2 hr]
    exact h
  | none =>
    simp only [Option.getD_none]
    have hmem := replaceFirst_none u p v m hr
    rw [storeUnique]
    have hperm : List.Perm (storeKeys (mapInsert m u ⟨p, v⟩))
        ((u, p) :: storeKeys m) := by
      simpa [storeKeys] using
        (mapInsert_perm u ⟨p, v⟩ m).map (fun kv => (kv.1, kv.2.packageName))
    rw [hperm.nodup_iff]
    exact List.nodup_cons.2 ⟨hmem, h⟩

theorem storeUnique_eraseFirstApp (m : List (Int × AppData)) (u : Int)
    (p : String) (h : storeUnique m) : storeUnique (eraseFirstApp m u p) := by
  have h2 : (List.map (fun kv => (kv.1, kv.2.packageName)) m).Nodup := h
  have h3 := ((eraseFirstApp_sublist u p m).map
    (fun kv => (kv.1, kv.2.packageName))).nodup h2
  exact h3

theorem storeUnique_updateMap_map (l : List (Int × Int × String))
    (h : (l.map (fun e => (e.1, e.2.2))).Nodup) :
    storeUnique (l.foldl (fun m e => mapInsert m e.1 ⟨e.2.2, e.2.1⟩) []) := by
  rw [storeUnique]
  have hperm : List.Perm
      (storeKeys (l.foldl (fun m e => mapInsert m e.1 ⟨e.2.2, e.2.1⟩) []))
      (l.map (fun e => (e.1, e.2.2))) := by
    simpa [storeKeys, List.map_map, Function.comp] using
      (foldl_mapInsert_perm l []).map (fun kv => (kv.1, kv.2.packageName))
  rw [hperm.nodup_iff]
  exact h

/-! ## Further lemmas for the claims -/

theorem wmAfterReads_of_lookup (key : Nat) (w : Int) (s : UidMapState)
    (hsort : wmSorted s.mLastUpdatePerConfigKey)
    (hk : alookup s.mLastUpdatePerConfigKey key = some w) :
    wmAfterReads key s = s.mLastUpdatePerConfigKey := by
  rw [wmAfterReads]
  split
  · rfl
  · exact wmEnsure_of_lookup key w _ hsort hk

theorem alookup_imErase_self (k : Int) :
    ∀ m : List (Int × Int), (m.map Prod.fst).Nodup →
      alookup (imErase m k) k = none := by
  intro m
  induction m with
  | nil => intro _; rfl
  | cons hd tl ih =>
    obtain ⟨a, b⟩ := hd
    intro hnd
    simp only [List.map_cons, List.nodup_cons] at hnd
    by_cases ha : a = k
    · simp only [imErase, if_pos ha]
      exact alookup_eq_none tl k (ha ▸ hnd.1)
    · simp only [imErase, if_neg ha, alookup, if_neg ha]
      exact ih hnd.2

theorem ensure_set_mMap2 (C : Consts) (limit : Nat)
    (m mp : List (Int × AppData)) (sn : List SnapshotRecord)
    (ch : List ChangeRecord) (b : Nat) (wm : List (Nat × Int))
    (iso : List (Int × Int)) :
    ensureBytesUsedBelowLimit C limit ⟨m, sn, ch, b, wm, iso⟩
      = { ensureBytesUsedBelowLimit C limit ⟨mp, sn, ch, b, wm, iso⟩ with
          mMap := m } :=
  ensure_set_mMap C limit ⟨mp, sn, ch, b, wm, iso⟩ m

theorem removeApp_set_mMap (C : Consts) (limit : Nat) (t : Int) (app : String)
    (u : Int) (mp m2 : List (Int × AppData)) (sn : List SnapshotRecord)
    (ch : List ChangeRecord) (b : Nat) (wm : List (Nat × Int))
    (iso : List (Int × Int)) :
    removeApp C limit t app u ⟨m2, sn, ch, b, wm, iso⟩
      = { removeApp C limit t app u ⟨mp, sn, ch, b, wm, iso⟩ with
          mMap := eraseFirstApp m2 u app } := by
  simp only [removeApp]
  rw [ensure_set_mMap2 C limit m2 mp sn (ch ++ [ChangeRecord.mk true t app u 0])
    (b + C.kBytesChangeRecord) wm iso]

/-- Bounded-iteration termination of the raw loop body on accounted
states: some number of `evictStep` iterations reaches a state at or under
the limit. -/
theorem evict_iterate_aux (C : Consts) (limit : Nat) :
    ∀ (N : Nat) (s : UidMapState),
      s.mSnapshots.length + s.mChanges.length ≤ N → accounted C s →
      ∃ n : Nat, ((evictStep C)^[n] s).mBytesUsed ≤ limit := by
  intro N
  induction N with
  | zero =>
    intro s hl hacc
    have hs : s.mSnapshots = [] := List.length_eq_zero.1 (by omega)
    have hc : s.mChanges = [] := List.length_eq_zero.1 (by omega)
    refine ⟨0, ?_⟩
    simp only [Function.iterate_zero, id_eq]
    rw [accounted, hs, hc, snapshotsCost_nil, changesCost_nil] at hacc
    omega
  | succ N ih =>
    intro s hl hacc
    by_cases hg : limit < s.mBytesUsed
    · rcases hs : s.mSnapshots with _ | ⟨r, rest⟩
      · rcases hc : s.mChanges with _ | ⟨c, restc⟩
        · refine ⟨0, ?_⟩
          simp only [Function.iterate_zero, id_eq]
          rw [accounted, hs, hc, snapshotsCost_nil, changesCost_nil] at hacc
          omega
        · have hstep := evictStep_eq_chg C s c restc hs hc
          have e1 : (evictStep C s).mSnapshots = [] := by rw [hstep]; exact hs
          have e2 : (evictStep C s).mChanges = restc := by rw [hstep]
          have e3 : (evictStep C s).mBytesUsed
              = s.mBytesUsed - C.kBytesChangeRecord := by rw [hstep]
          have hacc2 : accounted C (evictStep C s) := by
            rw [accounted, e1, e2, e3, snapshotsCost_nil]
            rw [accounted, hs, hc, snapshotsCost_nil, changesCost_cons] at hacc
            omega
          have hl2 : (evictStep C s).mSnapshots.length
              + (evictStep C s).mChanges.length ≤ N := by
            rw [e1, e2]
            rw [hs, hc] at hl
            simp only [List.length_nil, List.length_cons] at hl ⊢
            omega
          obtain ⟨n, hn⟩ := ih (evictStep C s) hl2 hacc2
          exact ⟨n + 1, by rwa [Function.iterate_succ_apply]⟩
      · have hstep := evictStep_eq_snap C s r rest hs
        have e1 : (evictStep C s).mSnapshots = rest := by rw [hstep]
        have e2 : (evictStep C s).mChanges = s.mChanges := by rw [hstep]
        have e3 : (evictStep C s).mBytesUsed
            = s.mBytesUsed - snapshotCost C r := by rw [hstep]
        have hacc2 : accounted C (evictStep C s) := by
          rw [accounted, e1, e2, e3]
          rw [accounted, hs, snapshotsCost_cons] at hacc
          omega
        have hl2 : (evictStep C s).mSnapshots.length
            + (evictStep C s).mChanges.length ≤ N := by
          rw [e1, e2]
          rw [hs] at hl
          simp only [List.length_cons] at hl
          omega
        obtain ⟨n, hn⟩ := ih (evictStep C s) hl2 hacc2
        exact ⟨n + 1, by rwa [Function.iterate_succ_apply]⟩
    · exact ⟨0, by simpa using Nat.not_lt.1 hg⟩

/-! ## Claim theorems -/

/-- C1 (code bug): at `exC1` two snapshots (timestamps 10 and 20) are
retained and consumer 0's watermark is 30, yet `appendUidMap` at time 40
writes no snapshot at all — although the source's own comment says it
ensures at least the latest snapshot is included. The `count` variable
counts emitted snapshots, not the loop index, so once no snapshot has been
emitted and more than one is retained, the last-snapshot test
`count == mSnapshots.size() - 1` can never fire. -/
theorem c1_no_snapshot_for_stale_consumer :
    exC1.mSnapshots ≠ [] ∧ accounted C0 exC1
    ∧ (appendUidMap C0 40 0 exC1).snapshotsOut = [] := by decide

/-- C2 (counterexample): from the well-formed, budget-saturated state
`exC2` (limit 3), one `appendUidMap` call purges everything and then
synthesizes a snapshot whose cost leaves `mBytesUsed = 4 > 3`; the
purge-plus-resynthesis path never runs eviction. -/
theorem c2_counterexample :
    accounted C0 exC2 ∧ exC2.mBytesUsed ≤ 3
    ∧ 3 < (appendUidMap C0 10 0 exC2).state.mBytesUsed := by decide

/-- C2 (amended): on byte-accounted states, `bytesUsed ≤ limit` holds
after `updateMap`, `updateApp` and `removeApp` complete; the
purge-plus-resynthesis step inside `appendUidMap` is excluded (see the
counterexample). -/
theorem c2_bytes_below_limit_after_mutations (C : Consts) (limit : Nat)
    (t1 t2 t3 : Int) (p app : String) (u v u2 : Int)
    (uids vcs : List Int) (pkgs : List String) (s : UidMapState)
    (h : accounted C s) :
    (updateApp C limit t1 p u v s).mBytesUsed ≤ limit
    ∧ (removeApp C limit t2 app u2 s).mBytesUsed ≤ limit
    ∧ (updateMap C limit t3 uids vcs pkgs s).mBytesUsed ≤ limit := by
  refine ⟨?_, ?_, ?_⟩
  · exact (ensure_le C limit _
      (accounted_addChange C s ⟨false, t1, p, u, v⟩ h)).1
  · exact (ensure_le C limit _
      (accounted_addChange C s ⟨true, t2, app, u2, 0⟩ h)).1
  · exact (ensure_le C limit _
      (accounted_addSnap C s
        ((uids.zip (vcs.zip pkgs)).foldl
          (fun m e => mapInsert m e.1 ⟨e.2.2, e.2.1⟩) [])
        ⟨t3, (uids.zip (vcs.zip pkgs)).map
          (fun e => SnapEntry.mk e.2.2 (toInt32 e.2.1) e.1)⟩ h)).1

theorem c2_witness : (updateApp C0 3 9 "a" 1 7 exW).mBytesUsed ≤ 3 :=
  (c2_bytes_below_limit_after_mutations C0 3 9 9 9 "a" "b" 1 7 2
    [1] [1] ["x"] exW (by decide)).1

/-- C3 (counterexample): from the state with both logs empty and
`mBytesUsed = 5` above the limit 3, the eviction loop body leaves the
state unchanged, so no number of iterations ever brings `mBytesUsed` at or
under the limit — the C++ `while` loop spins forever there; it has no
defensive floor. -/
theorem c3_counterexample :
    exC3.mSnapshots = [] ∧ exC3.mChanges = [] ∧ 3 < exC3.mBytesUsed
    ∧ ¬ ∃ n : Nat, ((evictStep C0)^[n] exC3).mBytesUsed ≤ 3 := by
  refine ⟨rfl, rfl, by decide, ?_⟩
  rintro ⟨n, hn⟩
  rw [Function.iterate_fixed (show evictStep C0 exC3 = exC3 by decide) n] at hn
  exact absurd hn (by decide)

/-- C3 (amended): the eviction loop terminates from every state satisfying
the byte accounting invariant — in particular from every state the
mutating operations can produce: some number of loop iterations reaches
`bytesUsed ≤ limit`. -/
theorem c3_eviction_terminates (C : Consts) (limit : Nat) (s : UidMapState)
    (h : accounted C s) :
    ∃ n : Nat, ((evictStep C)^[n] s).mBytesUsed ≤ limit :=
  evict_iterate_aux C limit (s.mSnapshots.length + s.mChanges.length) s
    le_rfl h

theorem c3_witness :
    accounted C0 exW
    ∧ ∃ n : Nat, ((evictStep C0)^[n] exW).mBytesUsed ≤ 2 :=
  ⟨by decide, c3_eviction_terminates C0 2 exW (by decide)⟩

/-- C4 (counterexample): in `exC4` consumer 0 is registered with watermark
value 0 and consumer 1 with 3; `getMinimumTimestampNs` treats the value 0
as unset, so reconciling consumer 1 at time 10 purges the change record at
timestamp 5 even though 5 is at or above the true minimum watermark 0 of
the resulting registration map — consumer 0 loses a change it never saw. -/
theorem c4_counterexample :
    accounted C0 exC4
    ∧ wmSorted exC4.mLastUpdatePerConfigKey
    ∧ (⟨false, 5, "a", 1, 1⟩ : ChangeRecord) ∈ exC4.mChanges
    ∧ specMinWatermark
        (appendUidMap C0 10 1 exC4).state.mLastUpdatePerConfigKey = some 0
    ∧ (0 : Int) ≤ 5
    ∧ (appendUidMap C0 10 1 exC4).state.mChanges = [] := by decide

/-- C4 (amended): provided the reconciling key is already registered, no
registered watermark value is 0 and the timestamp is nonzero, `reconcile`
sets `watermark[key] = timestamp`, the minimum the code computes is the
true minimum over all registered consumers, and purging — performed only
when that minimum strictly advanced — removes exactly the records with
timestamp strictly below the new minimum (the snapshot log additionally
gains one synthesized snapshot when the purge emptied it). -/
theorem c4_purge_at_new_minimum (C : Consts) (t : Int) (key : Nat) (w : Int)
    (s : UidMapState)
    (hsort : wmSorted s.mLastUpdatePerConfigKey)
    (hk : alookup s.mLastUpdatePerConfigKey key = some w)
    (hnz : ∀ kv ∈ s.mLastUpdatePerConfigKey, kv.2 ≠ 0)
    (ht : t ≠ 0) :
    (appendUidMap C t key s).state.mLastUpdatePerConfigKey
        = wmSet s.mLastUpdatePerConfigKey key t
    ∧ alookup (appendUidMap C t key s).state.mLastUpdatePerConfigKey key
        = some t
    ∧ specMinWatermark s.mLastUpdatePerConfigKey
        = some (appendPrevMin key s)
    ∧ specMinWatermark (wmSet s.mLastUpdatePerConfigKey key t)
        = some (appendNewMin t key s)
    ∧ (appendPrevMin key s < appendNewMin t key s →
        (appendUidMap C t key s).state.mChanges
            = s.mChanges.filter (fun r => appendNewMin t key s ≤ r.timestampNs)
        ∧ (appendUidMap C t key s).state.mSnapshots
            = (if s.mSnapshots.filter
                  (fun r => appendNewMin t key s ≤ r.timestampNs) = [] then
                [⟨t, synthSnapshot s.mMap⟩]
              else
                s.mSnapshots.filter
                  (fun r => appendNewMin t key s ≤ r.timestampNs)))
    ∧ (¬ appendPrevMin key s < appendNewMin t key s →
        (appendUidMap C t key s).state.mChanges = s.mChanges
        ∧ (appendUidMap C t key s).state.mSnapshots = s.mSnapshots) := by
  have hwr : wmAfterReads key s = s.mLastUpdatePerConfigKey :=
    wmAfterReads_of_lookup key w s hsort hk
  refine ⟨?_, ?_, ?_, ?_, ?_, ?_⟩
  · rw [appendUidMap_wm, hwr]
  · rw [appendUidMap_wm, hwr]
    exact alookup_wmSet_self key t _
  · rw [appendPrevMin, hwr]
    apply getMin_eq_specMin
    · intro he
      rw [he] at hk
      exact Option.noConfusion hk
    · exact hnz
  · rw [appendNewMin, hwr]
    apply getMin_eq_specMin _ (wmSet_ne_nil _ _ _)
    intro kv hkv
    rcases mem_wmSet key t _ kv hkv with h2 | h2
    · rw [h2]; exact ht
    · exact hnz kv h2
  · intro hlt
    rw [appendUidMap_state_of_lt C t key s hlt]
    exact ⟨rfl, rfl⟩
  · intro hnlt
    rw [appendUidMap_state_of_not_lt C t key s hnlt]
    exact ⟨rfl, rfl⟩

theorem c4_witness :
    alookup (appendUidMap C0 10 1 exW).state.mLastUpdatePerConfigKey 1
      = some 10 :=
  (c4_purge_at_new_minimum C0 10 1 4 exW (by decide) (by decide)
    (by decide) (by decide)).2.1

/-- C5: whenever `appendUidMap` purges (the minimum watermark strictly
advanced), the resulting snapshot log is nonempty; if the purge would
leave it empty, one fresh snapshot serializing the current identity store
at the reconciling timestamp is inserted and its cost
(`kBytesTimestampField` plus its encoded size) is charged to the budget. -/
theorem c5_snapshot_log_nonempty_after_purge (C : Consts) (t : Int)
    (key : Nat) (s : UidMapState)
    (h : appendPrevMin key s < appendNewMin t key s) :
    (appendUidMap C t key s).state.mSnapshots ≠ []
    ∧ (s.mSnapshots.filter (fun r => appendNewMin t key s ≤ r.timestampNs)
          = [] →
        (appendUidMap C t key s).state.mSnapshots
            = [⟨t, synthSnapshot s.mMap⟩]
        ∧ (appendUidMap C t key s).state.mBytesUsed
            = s.mBytesUsed
              - snapshotsCost C
                  (s.mSnapshots.filter
                    (fun r => r.timestampNs < appendNewMin t key s))
              - changesCost C
                  (s.mChanges.filter
                    (fun r => r.timestampNs < appendNewMin t key s))
              + C.kBytesTimestampField
              + C.encodedSize (synthSnapshot s.mMap)) := by
  rw [appendUidMap_state_of_lt C t key s h]
  by_cases hF : s.mSnapshots.filter
      (fun r => appendNewMin t key s ≤ r.timestampNs) = []
  · refine ⟨?_, fun _ => ⟨?_, ?_⟩⟩
    · show (if s.mSnapshots.filter
          (fun r => appendNewMin t key s ≤ r.timestampNs) = [] then
            [(⟨t, synthSnapshot s.mMap⟩ : SnapshotRecord)]
          else s.mSnapshots.filter
            (fun r => appendNewMin t key s ≤ r.timestampNs)) ≠ []
      rw [if_pos hF]
      simp
    · show (if s.mSnapshots.filter
          (fun r => appendNewMin t key s ≤ r.timestampNs) = [] then
            [(⟨t, synthSnapshot s.mMap⟩ : SnapshotRecord)]
          else s.mSnapshots.filter
            (fun r => appendNewMin t key s ≤ r.timestampNs))
          = [⟨t, synthSnapshot s.mMap⟩]
      rw [if_pos hF]
    · show (if s.mSnapshots.filter
          (fun r => appendNewMin t key s ≤ r.timestampNs) = [] then
            s.mBytesUsed
              - snapshotsCost C
                  (s.mSnapshots.filter
                    (fun r => r.timestampNs < appendNewMin t key s))
              - changesCost C
                  (s.mChanges.filter
                    (fun r => r.timestampNs < appendNewMin t key s))
              + C.kBytesTimestampField
              + C.encodedSize (synthSnapshot s.mMap)
          else
            s.mBytesUsed
              - snapshotsCost C
                  (s.mSnapshots.filter
                    (fun r => r.timestampNs < appendNewMin t key s))
              - changesCost C
                  (s.mChanges.filter
                    (fun r => r.timestampNs < appendNewMin t key s)))
          = s.mBytesUsed
              - snapshotsCost C
                  (s.mSnapshots.filter
                    (fun r => r.timestampNs < appendNewMin t key s))
              - changesCost C
                  (s.mChanges.filter
                    (fun r => r.timestampNs < appendNewMin t key s))
              + C.kBytesTimestampField
              + C.encodedSize (synthSnapshot s.mMap)
      rw [if_pos hF]
  · refine ⟨?_, fun hcon => absurd hcon hF⟩
    show (if s.mSnapshots.filter
        (fun r => appendNewMin t key s ≤ r.timestampNs) = [] then
          [(⟨t, synthSnapshot s.mMap⟩ : SnapshotRecord)]
        else s.mSnapshots.filter
          (fun r => appendNewMin t key s ≤ r.timestampNs)) ≠ []
    rw [if_neg hF]
    exact hF

theorem c5_witness : (appendUidMap C0 10 0 exW).state.mSnapshots ≠ [] :=
  (c5_snapshot_log_nonempty_after_purge C0 10 0 exW (by decide)).1

/-- C6 (counterexample): a bulk replace whose input repeats the
(uid, packageName) pair (1, "a") leaves two entries with that pair in the
identity store — `updateMap` inserts the rows verbatim. -/
theorem c6_counterexample :
    ¬ storeUnique (updateMap C0 100 1 [1, 1] [5, 6] ["a", "a"] exEmpty).mMap := by
  decide

/-- C6 (amended): starting from a store with unique (uid, packageName)
pairs, `updateApp`, `removeApp` and `appendUidMap` preserve uniqueness
unconditionally, and `updateMap` preserves it provided its input rows
contain no duplicate (uid, packageName) pair. -/
theorem c6_store_unique_after_ops (C : Consts) (limit : Nat)
    (t1 t2 t3 t4 : Int) (key : Nat) (p app : String) (u v u2 : Int)
    (uids vcs : List Int) (pkgs : List String) (s : UidMapState)
    (h : storeUnique s.mMap)
    (hin : ((uids.zip (vcs.zip pkgs)).map (fun e => (e.1, e.2.2))).Nodup) :
    storeUnique (updateApp C limit t1 p u v s).mMap
    ∧ storeUnique (removeApp C limit t2 app u2 s).mMap
    ∧ storeUnique (appendUidMap C t3 key s).state.mMap
    ∧ storeUnique (updateMap C limit t4 uids vcs pkgs s).mMap := by
  refine ⟨?_, ?_, ?_, ?_⟩
  · simp only [updateApp, ensure_mMap]
    exact storeUnique_updateApp_map s.mMap u p v h
  · simp only [removeApp, ensure_mMap]
    exact storeUnique_eraseFirstApp s.mMap u2 app h
  · rw [appendUidMap_mMap]
    exact h
  · simp only [updateMap, ensure_mMap]
    exact storeUnique_updateMap_map _ hin

theorem c6_witness : storeUnique (updateApp C0 3 5 "b" 2 1 exW).mMap :=
  (c6_store_unique_after_ops C0 3 5 5 5 5 0 "b" "c" 2 1 3
    [1, 2] [7, 8] ["x", "y"] exW (by decide) (by decide)).1

/-- C7 (counterexample): a consumer holding watermark 5 reconciles with
the earlier timestamp 3; the code stores the given timestamp without
comparing it to the previous value, so the watermark moves backwards. -/
theorem c7_counterexample :
    alookup exC7.mLastUpdatePerConfigKey 0 = some 5
    ∧ alookup (appendUidMap C0 3 0 exC7).state.mLastUpdatePerConfigKey 0
        = some 3
    ∧ (3 : Int) < 5 := by decide

/-- C7 (amended): no mutating operation other than `reconcile` touches any
watermark, and `reconcile` sets the consumer's watermark to exactly its
timestamp argument — so watermarks are non-decreasing precisely when each
consumer's reconcile timestamps are non-decreasing (as with the monotonic
clock of the no-timestamp overloads), and the registered watermark `w`
never exceeds the new value `t` whenever `w ≤ t`. -/
theorem c7_watermark_set_to_timestamp (C : Consts) (limit : Nat)
    (t1 t2 t3 t : Int) (p app : String) (u v u2 : Int)
    (uids vcs : List Int) (pkgs : List String) (key : Nat) (w : Int)
    (s : UidMapState)
    (hk : alookup s.mLastUpdatePerConfigKey key = some w)
    (hle : w ≤ t) :
    (updateApp C limit t1 p u v s).mLastUpdatePerConfigKey
        = s.mLastUpdatePerConfigKey
    ∧ (removeApp C limit t2 app u2 s).mLastUpdatePerConfigKey
        = s.mLastUpdatePerConfigKey
    ∧ (updateMap C limit t3 uids vcs pkgs s).mLastUpdatePerConfigKey
        = s.mLastUpdatePerConfigKey
    ∧ alookup (appendUidMap C t key s).state.mLastUpdatePerConfigKey key
        = some t
    ∧ w ≤ t := by
  refine ⟨?_, ?_, ?_, ?_, hle⟩
  · simp only [updateApp, ensure_wm]
  · simp only [removeApp, ensure_wm]
  · simp only [updateMap, ensure_wm]
  · rw [appendUidMap_wm]
    exact alookup_wmSet_self key t _

theorem c7_witness :
    alookup (appendUidMap C0 10 0 exW).state.mLastUpdatePerConfigKey 0
      = some 10 :=
  (c7_watermark_set_to_timestamp C0 3 1 2 3 10 "a" "b" 1 2 3
    [1] [1] ["x"] 0 1 exW (by decide) (by decide)).2.2.2.1

/-- C8: on byte-accounted states the eviction loop ends at or under the
limit, evicts nothing when already under, drops only oldest-first prefixes
of the two logs, touches the change log only once the snapshot log has
been emptied, reduces `mBytesUsed` by exactly the serialized size plus
timestamp overhead of each dropped snapshot and the fixed per-record size
of each dropped change, and evicts only when over the limit. -/
theorem c8_eviction_oldest_snapshot_first (C : Consts) (limit : Nat)
    (s : UidMapState) (h : accounted C s) :
    (ensureBytesUsedBelowLimit C limit s).mBytesUsed ≤ limit
    ∧ (s.mBytesUsed ≤ limit → ensureBytesUsedBelowLimit C limit s = s)
    ∧ ∃ k j,
        (ensureBytesUsedBelowLimit C limit s).mSnapshots
            = s.mSnapshots.drop k
        ∧ (ensureBytesUsedBelowLimit C limit s).mChanges = s.mChanges.drop j
        ∧ (0 < j → s.mSnapshots.length ≤ k)
        ∧ s.mBytesUsed = (ensureBytesUsedBelowLimit C limit s).mBytesUsed
            + snapshotsCost C (s.mSnapshots.take k)
            + j * C.kBytesChangeRecord
        ∧ (0 < k + j → limit < s.mBytesUsed) := by
  obtain ⟨k, j, h1, h2, h3, h4, h5, h6, h7⟩ := ensure_main C limit s h
  exact ⟨h7, fun hle => ensure_of_le C limit s hle, k, j, h1, h2, h3, h4, h5⟩

theorem c8_witness : (ensureBytesUsedBelowLimit C0 1 exW).mBytesUsed ≤ 1 :=
  (c8_eviction_oldest_snapshot_first C0 1 exW (by decide)).1

/-- C9: removing an identity that is not in the store is not an error: the
whole call equals the pure log-and-budget transformation (append one
deletion record, charge `kBytesChangeRecord`, run eviction), the store is
left unchanged, and the resulting logs and byte count are the same as they
would be from any store contents — exactly as when the entry exists. -/
theorem c9_remove_absent_app (C : Consts) (limit : Nat) (t : Int)
    (app : String) (u : Int) (s : UidMapState)
    (m2 : List (Int × AppData))
    (hno : ∀ kv ∈ s.mMap, ¬(kv.1 = u ∧ kv.2.packageName = app)) :
    removeApp C limit t app u s
      = ensureBytesUsedBelowLimit C limit
          { s with mChanges := s.mChanges ++ [⟨true, t, app, u, 0⟩],
                   mBytesUsed := s.mBytesUsed + C.kBytesChangeRecord }
    ∧ (removeApp C limit t app u s).mMap = s.mMap
    ∧ (removeApp C limit t app u { s with mMap := m2 }).mChanges
        = (removeApp C limit t app u s).mChanges
    ∧ (removeApp C limit t app u { s with mMap := m2 }).mSnapshots
        = (removeApp C limit t app u s).mSnapshots
    ∧ (removeApp C limit t app u { s with mMap := m2 }).mBytesUsed
        = (removeApp C limit t app u s).mBytesUsed := by
  rcases s with ⟨mp, sn, ch, b, wm, iso⟩
  have heq : eraseFirstApp (ensureBytesUsedBelowLimit C limit
      ⟨mp, sn, ch ++ [ChangeRecord.mk true t app u 0],
        b + C.kBytesChangeRecord, wm, iso⟩).mMap u app
      = (ensureBytesUsedBelowLimit C limit
          ⟨mp, sn, ch ++ [ChangeRecord.mk true t app u 0],
            b + C.kBytesChangeRecord, wm, iso⟩).mMap := by
    rw [ensure_mMap]
    exact eraseFirstApp_of_no_match u app mp hno
  refine ⟨?_, ?_, ?_, ?_, ?_⟩
  · show { ensureBytesUsedBelowLimit C limit
        ⟨mp, sn, ch ++ [ChangeRecord.mk true t app u 0],
          b + C.kBytesChangeRecord, wm, iso⟩ with
        mMap := eraseFirstApp (ensureBytesUsedBelowLimit C limit
          ⟨mp, sn, ch ++ [ChangeRecord.mk true t app u 0],
            b + C.kBytesChangeRecord, wm, iso⟩).mMap u app }
      = ensureBytesUsedBelowLimit C limit
          ⟨mp, sn, ch ++ [ChangeRecord.mk true t app u 0],
            b + C.kBytesChangeRecord, wm, iso⟩
    rw [heq]
  · show eraseFirstApp (ensureBytesUsedBelowLimit C limit
        ⟨mp, sn, ch ++ [ChangeRecord.mk true t app u 0],
          b + C.kBytesChangeRecord, wm, iso⟩).mMap u app = mp
    rw [ensure_mMap]
    exact eraseFirstApp_of_no_match u app mp hno
  · rw [removeApp_set_mMap C limit t app u mp m2 sn ch b wm iso]
  · rw [removeApp_set_mMap C limit t app u mp m2 sn ch b wm iso]
  · rw [removeApp_set_mMap C limit t app u mp m2 sn ch b wm iso]

theorem c9_witness : (removeApp C0 3 9 "b" 1 exW).mMap = exW.mMap :=
  (c9_remove_absent_app C0 3 9 "b" 1 exW [] (by decide)).2.1

/-- C10: `removeIsolatedUid` never reads its `parentUid` argument — the
call result is identical for any supplied parent — and afterwards
`getHostUidOrSelf` resolves the isolated uid to itself (given the
`std::map` key-uniqueness invariant of the alias table). -/
theorem c10_removeAlias_ignores_parent (s : UidMapState) (iso p p2 : Int)
    (h : (s.mIsolatedUidMap.map Prod.fst).Nodup) :
    removeIsolatedUid iso p s = removeIsolatedUid iso p2 s
    ∧ getHostUidOrSelf iso (removeIsolatedUid iso p s) = iso := by
  refine ⟨rfl, ?_⟩
  show (alookup (imErase s.mIsolatedUidMap iso) iso).getD iso = iso
  rw [alookup_imErase_self iso s.mIsolatedUidMap h]
  rfl

theorem c10_witness : getHostUidOrSelf 5 (removeIsolatedUid 5 99 exW) = 5 :=
  (c10_removeAlias_ignores_parent exW 5 99 0 (by decide)).2

end UidMap
